import Mathlib

/-!
Verification of the markdown-to-document conversion engine of the
InstaStudy repository (`src/word_document_manager.py`).

The Python code is shallowly embedded: strings are `List Char` (wrapped in
`String` at the interface), Python's text functions (`str.strip`,
`str.splitlines`, `str.split`, the regular expressions appearing in the
source) are reimplemented as executable Lean functions, and the stateful
parts (the generation pass's file writes) are modelled as explicit event
sequences.
-/

namespace InstaStudy

/-- Characters Python's `str.strip()` / regex `\s` treat as whitespace
(ASCII range; the inputs of interest are ASCII). -/
def isPySpace (c : Char) : Bool :=
  c = ' ' || c = '\t' || c = '\n' || c = '\r' || c = '\x0b' || c = '\x0c'

/-- Characters Python's `str.splitlines()` treats as line boundaries. -/
def isLineBreak (c : Char) : Bool :=
  c = '\n' || c = '\r' || c = '\x0b' || c = '\x0c' || c = '\x1c' ||
  c = '\x1d' || c = '\x1e' || c = '\x85' || c = Char.ofNat 0x2028 || c = Char.ofNat 0x2029

/-- Drop trailing characters satisfying `isPySpace` (right half of `str.strip`). -/
def trimRight : List Char → List Char
  | [] => []
  | c :: cs =>
    match trimRight cs with
    | [] => if isPySpace c then [] else [c]
    | r => c :: r

/-- Python `str.strip()`. -/
def pyStrip (l : List Char) : List Char := trimRight (l.dropWhile isPySpace)

/-- Python `str.rstrip()`. -/
def pyRstrip (l : List Char) : List Char := trimRight l

/-- Python `str.splitlines()`: accumulator-based scan; `\r\n` counts as a
single boundary (`skipNl` set after a `\r` swallows one following `\n`), a
trailing boundary produces no extra empty line. -/
def splitLinesA : List Char → List Char → Bool → List (List Char)
  | [], acc, _ => if acc = [] then [] else [acc.reverse]
  | c :: cs, acc, skipNl =>
    if skipNl && c = '\n' then splitLinesA cs [] false
    else if c = '\r' then acc.reverse :: splitLinesA cs [] true
    else if isLineBreak c then acc.reverse :: splitLinesA cs [] false
    else splitLinesA cs (c :: acc) false

/-- Python `str.splitlines()`. -/
def splitLines (l : List Char) : List (List Char) := splitLinesA l [] false

/-- `'\n'.join(lines)`. -/
def joinNl : List (List Char) → List Char
  | [] => []
  | l :: ls => if ls = [] then l else l ++ '\n' :: joinNl ls

/-- Python `str.split(sep)` for a single separator character. -/
def splitOnChar (sep : Char) : List Char → List (List Char)
  | [] => [[]]
  | c :: cs =>
    if c = sep then [] :: splitOnChar sep cs
    else
      match splitOnChar sep cs with
      | [] => [[c]]
      | r :: rs => (c :: r) :: rs

/-- `content.lstrip('﻿')`: drop leading byte-order marks. -/
def stripBomChars (l : List Char) : List Char := l.dropWhile (· = Char.ofNat 0xFEFF)

/-- `cleaned.lstrip('\n')`. -/
def dropNlPrefix (l : List Char) : List Char := l.dropWhile (· = '\n')

/-- ASCII alphanumeric test, the character class `[A-Za-z0-9]`. -/
def isAsciiAlnum (c : Char) : Bool :=
  ('A' ≤ c && c ≤ 'Z') || ('a' ≤ c && c ≤ 'z') || ('0' ≤ c && c ≤ '9')

/-- `re.fullmatch(r'[-=]{3,}', s)`: three or more characters, each `-` or `=`. -/
def isSepDashEq (l : List Char) : Bool :=
  decide (3 ≤ l.length) && l.all (fun c => c = '-' || c = '=')

/-- `re.fullmatch(r'={3,}|-{3,}', s)`: three or more of all `=` or all `-`. -/
def isSepStrict (l : List Char) : Bool :=
  decide (3 ≤ l.length) && (l.all (· = '-') || l.all (· = '='))

/-- The metadata key prefixes recognised by `strip_md_header`. -/
def metaPrefixes : List (List Char) :=
  [String.data "Generated:", String.data "Source:", String.data "Subject:",
   String.data "Model:", String.data "Tokens Used:", String.data "Author:",
   String.data "Date:"]

/-- `re.fullmatch(r'[^A-Za-z0-9\n]{3,}', s)`: a run of 3+ characters none of
which is ASCII alphanumeric or a newline. -/
def isPunctRun (l : List Char) : Bool :=
  decide (3 ≤ l.length) && l.all (fun c => !isAsciiAlnum c && c ≠ '\n')

/-- `re.search(r'\.md\s*$', s, re.IGNORECASE)`: after discarding trailing
whitespace the string ends in `.md` (case-insensitive). -/
def endsWithMd (l : List Char) : Bool :=
  match l.reverse.dropWhile isPySpace with
  | c1 :: c2 :: '.' :: _ => (c1 = 'd' || c1 = 'D') && (c2 = 'm' || c2 = 'M')
  | _ => false

/-- One stripped line is dropped by the sanitizer's initial scan iff it is
blank, a separator run, a metadata-prefixed line, a punctuation run, or a
filename-like `.md` line (`removed_this_line` in the source). -/
def skippableLine (s : List Char) : Bool :=
  s = [] || isSepDashEq s || metaPrefixes.any (fun p => p.isPrefixOf s) ||
  isPunctRun s || endsWithMd s

/-- The sanitizer's forward scan (`while i < limit` loop of
`strip_md_header`), fuel-indexed: returns the final `skip_until`.  The 3-line
pattern separator / filename / separator advances by three lines at once.
`i` strictly increases each step, so `limit + 1` fuel is never exhausted. -/
def scanSkipF : Nat → List (List Char) → Nat → Nat → Nat
  | 0, _, _, i => i
  | fuel + 1, lines, limit, i =>
    if i < limit then
      let s := pyStrip (lines.getD i [])
      if skippableLine s then
        if isSepStrict s && decide (i + 2 < lines.length) &&
           endsWithMd (pyStrip (lines.getD (i + 1) [])) &&
           isSepStrict (pyStrip (lines.getD (i + 2) [])) then
          scanSkipF fuel lines limit (i + 3)
        else
          scanSkipF fuel lines limit (i + 1)
      else i
    else i

/-- The sanitizer's forward scan from index `i`. -/
def scanSkip (lines : List (List Char)) (limit : Nat) (i : Nat) : Nat :=
  scanSkipF (limit + 1) lines limit i

/-- Step (1) of `strip_md_header`: if the first line is exactly `---`,
delete up to and including the next `---` line (or just the first line if
no closing marker exists). -/
def frontMatterLines : List (List Char) → List (List Char)
  | [] => []
  | first :: rest =>
    if pyStrip first = ['-', '-', '-'] then
      match rest.findIdx? (fun x => pyStrip x = ['-', '-', '-']) with
      | some j => rest.drop (j + 1)
      | none => rest
    else first :: rest

/-- `WordDocumentManager.strip_md_header` on character lists, with the
default `max_skip_lines = 40`. -/
def stripMdHeaderCore (l : List Char) : List Char :=
  let lines := frontMatterLines (splitLines (stripBomChars l))
  let k := scanSkip lines (min lines.length 40) 0
  dropNlPrefix (joinNl (lines.drop k))

/-- `WordDocumentManager.strip_md_header` (the Front-Matter Sanitizer). -/
def strip_md_header (s : String) : String := ⟨stripMdHeaderCore s.data⟩

/-- One structural block element (`BlockElement` of the data model). -/
inductive MdElement where
  | paragraph (content : String)
  | heading (level : Nat) (content : String)
  | bullet (level : Nat) (content : String)
  | numbered (level : Nat) (content : String)
  | table (rows : List (List String)) (hasHeader : Bool)
  | blockquote (content : String)
  | codeblock (language : String) (code : String)
  | hr
deriving DecidableEq, Repr

/-- `re.match(r'^[\s\-:|]+$', line)`: a table header/body separator line. -/
def isSepLineTbl (l : List Char) : Bool :=
  decide (l ≠ []) && l.all (fun c => isPySpace c || c = '-' || c = ':' || c = '|')

/-- `[cell.strip() for cell in line[1:-1].split('|')]`. -/
def rowCells (l : List Char) : List (List Char) :=
  (splitOnChar '|' (l.drop 1).dropLast).map pyStrip

/-- The contiguous run of stripped pipe-bounded, non-blank lines starting the
table region (`parse_table`'s first loop). -/
def tableRegion (ls : List (List Char)) : List (List Char) :=
  (ls.map pyStrip).takeWhile
    (fun s => s.head? = some '|' && s.getLast? = some '|')

/-- The data rows of a table region: cell lists of the non-separator lines,
in order. -/
def tableRows (region : List (List Char)) : List (List (List Char)) :=
  (region.filter (fun l => !isSepLineTbl l)).map rowCells

/-- `has_header = separator_idx is not None and separator_idx <= 1`:
the first separator line of the region sits at index 0 or 1. -/
def tableHasHeader (region : List (List Char)) : Bool :=
  match region.findIdx? isSepLineTbl with
  | some j => decide (j ≤ 1)
  | none => false

/-- `WordDocumentManager.parse_table` applied to the line suffix starting at
the table's first line.  Returns `(rows, has_header, consumed lines)`; `none`
when the region has fewer than 2 lines or only separator lines. -/
def parse_table (ls : List (List Char)) :
    Option (List (List (List Char)) × Bool × Nat) :=
  let region := tableRegion ls
  if region.length < 2 then none
  else if tableRows region = [] then none
  else some (tableRows region, tableHasHeader region, region.length)

/-- The backtick character (code point 96). -/
def btick : Char := Char.ofNat 96

/-- `line.strip().startswith('\x60\x60\x60')`: a code-fence delimiter line. -/
def fenceLine (line : List Char) : Bool :=
  [btick, btick, btick].isPrefixOf (pyStrip line)

/-- `re.fullmatch(r'\s*[-]{3,}\s*', line)`: a horizontal-rule line. -/
def hrLine (line : List Char) : Bool :=
  decide (3 ≤ (pyStrip line).length) && (pyStrip line).all (· = '-')

/-- `re.match(r'^\s*>\s*(.+)$', line)` followed by `.group(1).strip()`:
the stripped content of a blockquote line, or `none` when the line is not a
blockquote candidate. -/
def blockquoteContent (line : List Char) : Option (List Char) :=
  match line.dropWhile isPySpace with
  | [] => none
  | c :: r =>
    if c = '>' then if r = [] then none else some (pyStrip r)
    else none

/-- `re.search(r'"([^"]*)"', content)`: position of the first double quote,
position one past the matching closing quote, and the text between them. -/
def findQuote (l : List Char) : Option (Nat × Nat × List Char) :=
  match l.findIdx? (· = '"') with
  | none => none
  | some p =>
    match (l.drop (p + 1)).findIdx? (· = '"') with
    | none => none
    | some d => some (p, p + d + 2, (l.drop (p + 1)).take d)

/-- `re.match(r'^(#{1,6})\s+(.+)$', line)`: heading level and stripped text. -/
def headingMatch (line : List Char) : Option (Nat × List Char) :=
  let k := (line.takeWhile (· = '#')).length
  if 1 ≤ k ∧ k ≤ 6 then
    match line.drop k with
    | [] => none
    | c :: _ => if isPySpace c then some (k, pyStrip (line.drop k)) else none
  else none

/-- `re.match(r'^(\s*)[-•*]\s+(.+)$', line)`: bullet indent level
(`leading spaces // 2`) and stripped text. -/
def bulletMatch (line : List Char) : Option (Nat × List Char) :=
  let ws := line.takeWhile isPySpace
  match line.drop ws.length with
  | [] => none
  | m :: r =>
    if m = '-' || m = '•' || m = '*' then
      match r with
      | [] => none
      | c :: _ => if isPySpace c then some (ws.length / 2, pyStrip r) else none
    else none

/-- `re.match(r'^(\s*)(\d+)\.\s+(.+)$', line)`: numbered-item indent level
and stripped text. -/
def numberMatch (line : List Char) : Option (Nat × List Char) :=
  let ws := line.takeWhile isPySpace
  let afterWs := line.drop ws.length
  let digits := afterWs.takeWhile (fun c => c.isDigit)
  if digits = [] then none
  else
    match afterWs.drop digits.length with
    | [] => none
    | d :: r =>
      if d = '.' then
        match r with
        | [] => none
        | c :: _ => if isPySpace c then some (ws.length / 2, pyStrip r) else none
      else none

/-- Flush the paragraph accumulator
(`elements.append({'type': 'paragraph', ...})` when `current_paragraph`). -/
def flushPara (cur : List (List Char)) : List MdElement :=
  if cur = [] then [] else [.paragraph ⟨pyStrip (joinNl cur)⟩]

/-- The main line loop of `parse_markdown_content`.  Arguments mirror the
Python locals: remaining lines, `current_paragraph`, `in_code_block`,
`code_language`, `code_lines`.  The fuel argument only bounds recursion; each
step consumes at least one line, so `lines.length + 1` fuel is never
exhausted. -/
def parseLines : Nat → List (List Char) → List (List Char) → Bool →
    List Char → List (List Char) → List MdElement
  | 0, _, cur, inCode, lang, code =>
    flushPara cur ++ (if inCode then [.codeblock ⟨lang⟩ ⟨joinNl code⟩] else [])
  | _ + 1, [], cur, inCode, lang, code =>
    flushPara cur ++ (if inCode then [.codeblock ⟨lang⟩ ⟨joinNl code⟩] else [])
  | fuel + 1, l0 :: rest, cur, inCode, lang, code =>
    let line := pyRstrip l0
    if fenceLine line then
      if !inCode then
        flushPara cur ++
          parseLines fuel rest [] true (pyStrip ((pyStrip line).drop 3)) []
      else
        flushPara cur ++ [.codeblock ⟨lang⟩ ⟨joinNl code⟩] ++
          parseLines fuel rest [] false lang code
    else if inCode then
      parseLines fuel rest cur true lang (code ++ [line])
    else if (pyStrip line).head? = some '|' &&
            (pyStrip line).getLast? = some '|' then
      flushPara cur ++
        (match parse_table (l0 :: rest) with
         | some (rows, hasHeader, consumed) =>
           MdElement.table (rows.map (fun r => r.map (⟨·⟩))) hasHeader ::
             parseLines fuel ((l0 :: rest).drop consumed) [] false lang code
         | none => parseLines fuel rest [line] false lang code)
    else if hrLine line then
      flushPara cur ++ [.hr] ++ parseLines fuel rest [] false lang code
    else
      match blockquoteContent line with
      | some content =>
        flushPara cur ++
          (match findQuote content with
           | some (qs, qe, q) =>
             [.blockquote ⟨q⟩] ++
               (if 0 < qs then [.paragraph ⟨pyStrip (content.take qs)⟩]
                else []) ++
               (if qe < content.length then
                  [.paragraph ⟨pyStrip (content.drop qe)⟩]
                else [])
           | none => [.paragraph ⟨content⟩]) ++
          parseLines fuel rest [] false lang code
      | none =>
        match headingMatch line with
        | some (lvl, txt) =>
          flushPara cur ++ [.heading lvl ⟨txt⟩] ++
            parseLines fuel rest [] false lang code
        | none =>
          match bulletMatch line with
          | some (lvl, txt) =>
            flushPara cur ++ [.bullet lvl ⟨txt⟩] ++
              parseLines fuel rest [] false lang code
          | none =>
            match numberMatch line with
            | some (lvl, txt) =>
              flushPara cur ++ [.numbered lvl ⟨txt⟩] ++
                parseLines fuel rest [] false lang code
            | none =>
              if pyStrip line = [] then
                flushPara cur ++ parseLines fuel rest [] false lang code
              else
                parseLines fuel rest (cur ++ [line]) false lang code

/-- Run the line loop from the initial parser state. -/
def parseLinesTop (lines : List (List Char)) : List MdElement :=
  parseLines (lines.length + 1) lines [] false [] []

/-- The Structural Parser: element sequence of already-sanitized text
(`parse_markdown_content` after its `strip_md_header` call; the source then
does `content.split('\n')`). -/
def structuralParse (content : List Char) : List MdElement :=
  parseLinesTop (splitOnChar '\n' content)

/-- `WordDocumentManager.parse_markdown_content`: sanitize, then parse. -/
def parse_markdown_content (s : String) : List MdElement :=
  structuralParse (stripMdHeaderCore s.data)

/-- Inline span styles assigned by `apply_inline_formatting`. -/
inductive SpanStyle where
  | plain
  | code
  | bold
  | italic
  | boldItalic
deriving DecidableEq, Repr

/-- One styled run of text (`InlineSpan` of the data model). -/
structure Span where
  text : String
  style : SpanStyle
deriving DecidableEq, Repr

/-- Leftmost match of a pattern `delim ([^excl]+) delim` (the shape of all
seven inline regexes): returns (start, end, inner text).  Mirrors the regex
engine: at each start position try the delimiter, then a maximal nonempty run
of non-`excl` characters, then the delimiter again; on failure advance one
position. -/
def findPat (delim : List Char) (excl : Char) :
    List Char → Nat → Option (Nat × Nat × List Char)
  | [], _ => none
  | l@(_ :: rest), p =>
    if delim.isPrefixOf l then
      let after := l.drop delim.length
      let inner := after.takeWhile (· ≠ excl)
      if decide (inner ≠ []) && delim.isPrefixOf (after.drop inner.length) then
        some (p, p + 2 * delim.length + inner.length, inner)
      else findPat delim excl rest (p + 1)
    else findPat delim excl rest (p + 1)

/-- The seven inline patterns in the precedence order of the source's
`patterns` list: code, triple-asterisk, triple-underscore, double-asterisk,
double-underscore, single-asterisk, single-underscore. -/
def inlinePatterns : List (List Char × Char × SpanStyle) :=
  [([btick], btick, .code),
   (['*', '*', '*'], '*', .boldItalic),
   (['_', '_', '_'], '_', .boldItalic),
   (['*', '*'], '*', .bold),
   (['_', '_'], '_', .bold),
   (['*'], '*', .italic),
   (['_'], '_', .italic)]

/-- The source's earliest-match selection: the strictly smallest start
position wins; on a tie the pattern listed first wins. -/
def earliestMatch (l : List Char) : Option (Nat × Nat × List Char × SpanStyle) :=
  inlinePatterns.foldl
    (fun best pat =>
      match findPat pat.1 pat.2.1 l 0 with
      | none => best
      | some (st, en, inner) =>
        match best with
        | none => some (st, en, inner, pat.2.2)
        | some (bst, _, _, _) =>
          if st < bst then some (st, en, inner, pat.2.2) else best)
    none

/-- The scanning loop of `apply_inline_formatting`: plain text before the
earliest match, a styled span for the match, continue after it.  Each step
consumes at least one character, so `length + 1` fuel is never exhausted. -/
def scanSpans : Nat → List Char → List Span
  | 0, rem => if rem = [] then [] else [⟨⟨rem⟩, .plain⟩]
  | fuel + 1, rem =>
    if rem = [] then []
    else
      match earliestMatch rem with
      | none => [⟨⟨rem⟩, .plain⟩]
      | some (st, en, inner, k) =>
        (if 0 < st then [⟨⟨rem.take st⟩, .plain⟩] else []) ++
          ⟨⟨inner⟩, k⟩ :: scanSpans fuel (rem.drop en)

/-- `WordDocumentManager.apply_inline_formatting` as a span producer (the
source emits document runs; a run with Consolas font is a `code` span, bold
and italic flags give the other styles). -/
def apply_inline_formatting (s : String) : List Span :=
  scanSpans (s.data.length + 1) s.data

/-- `max(len(row) for row in rows)` (as a fold; equal to Python's `max` for
the nonempty lists the caller guards for). -/
def maxColsOf (rows : List (List String)) : Nat :=
  rows.foldl (fun m r => max m r.length) 0

/-- The row normalisation of `create_word_table`: pad every row with empty
cells to `max_cols` and truncate to `max_cols`. -/
def normalizeRows (rows : List (List String)) : List (List String) :=
  let m := maxColsOf rows
  rows.map (fun r => (r ++ List.replicate (m - r.length) "").take m)

/-- The rows `create_word_table` actually emits into the rendered table:
nothing for an empty row list or zero columns, otherwise the normalised
rows. -/
def create_word_table_rows (rows : List (List String)) : List (List String) :=
  if rows = [] then []
  else if maxColsOf rows = 0 then []
  else normalizeRows rows

/-- `MermaidNode` dataclass. -/
structure MermaidNode where
  id : String
  label : String
  shape : String := "rectangle"
deriving DecidableEq, Repr

/-- `MermaidEdge` dataclass. -/
structure MermaidEdge where
  from_node : String
  to_node : String
  label : String := ""
deriving DecidableEq, Repr

/-- The geometry fields of `WordFormattingConfig` read by
`calculate_diagram_layout`, with the source's defaults; the Python floats
are modelled as rationals. -/
structure WordFormattingConfig where
  diagram_box_width : ℚ := 3 / 2
  diagram_box_height : ℚ := 3 / 5
  diagram_horizontal_spacing : ℚ := 2 / 5
  diagram_vertical_spacing : ℚ := 4 / 5
  diagram_max_width : ℚ := 13 / 2
deriving DecidableEq, Repr

/-- Declared node ids, in declaration order. -/
def nodeIds (nodes : List MermaidNode) : List String :=
  nodes.map MermaidNode.id

/-- The adjacency map of `calculate_diagram_layout` (`adjacency.get(x, [])`):
edge targets of `x` in edge order, empty for undeclared ids. -/
def adjacency (nodes : List MermaidNode) (edges : List MermaidEdge)
    (x : String) : List String :=
  if x ∈ nodeIds nodes then
    (edges.filter (fun e => e.from_node = x)).map MermaidEdge.to_node
  else []

/-- Root selection: nodes with no incoming edge; if none and the node list is
nonempty, the first declared node. -/
def rootIds (nodes : List MermaidNode) (edges : List MermaidEdge) :
    List String :=
  let hasIncoming := edges.map MermaidEdge.to_node
  let r := (nodes.filter (fun n => decide (n.id ∉ hasIncoming))).map
    MermaidNode.id
  match nodes with
  | [] => r
  | n :: _ => if r = [] then [n.id] else r

/-- Inner loop building `next_level`: append each neighbour not yet visited
and not already queued. -/
def addNexts (visited acc nbs : List String) : List String :=
  nbs.foldl (fun a nb => if nb ∈ visited ∨ nb ∈ a then a else a ++ [nb]) acc

/-- `next_level` of the BFS in `calculate_diagram_layout`. -/
def nextLevel (adj : String → List String) (visited current : List String) :
    List String :=
  current.foldl (fun a nid => addNexts visited a (adj nid)) []

/-- The BFS level loop (`while current_level`).  Each iteration visits at
least one fresh node drawn from the declared ids and edge targets, so
`nodes.length + edges.length + 1` fuel is never exhausted. -/
def bfsLevels (adj : String → List String) :
    Nat → List String → List String → List (List String)
  | 0, _, _ => []
  | fuel + 1, visited, current =>
    if current = [] then []
    else
      current ::
        bfsLevels adj fuel (visited ++ current)
          (nextLevel adj (visited ++ current) current)

/-- `enumerate`-style map with an explicit start index. -/
def enumMapFrom (f : Nat → α → β) : Nat → List α → List β
  | _, [] => []
  | i, a :: as => f i a :: enumMapFrom f (i + 1) as

/-- Horizontal (`LR`/`RL`) placement loop with column wrapping; state is
(`x`, `y`, `max_y_in_column`). -/
def placeLR (cfg : WordFormattingConfig) :
    List (List String) → ℚ → ℚ → ℚ → List (String × ℚ × ℚ)
  | [], _, _, _ => []
  | lvl :: rest, x, y, maxY =>
    let step := cfg.diagram_box_width + cfg.diagram_horizontal_spacing
    let wrap : Bool := decide (0 < x) && decide (cfg.diagram_max_width < x + step)
    let x1 := if wrap then 0 else x
    let y1 := if wrap then maxY + cfg.diagram_vertical_spacing * 2 else y
    let maxY1 := if wrap then y1 else maxY
    let placed := enumMapFrom
      (fun i nid =>
        (nid, x1,
         y1 + (i : ℚ) * (cfg.diagram_box_height + cfg.diagram_vertical_spacing)))
      0 lvl
    let maxY2 := placed.foldl (fun m q => max m q.2.2) maxY1
    placed ++ placeLR cfg rest (x1 + step) y1 maxY2

/-- Vertical (`TD`/`TB`/`BT`) placement loop with level wrapping; state is
(`y`, `max_x_in_row`). -/
def placeTD (cfg : WordFormattingConfig) :
    List (List String) → ℚ → ℚ → List (String × ℚ × ℚ)
  | [], _, _ => []
  | lvl :: rest, y, maxX =>
    let stepX := cfg.diagram_box_width + cfg.diagram_horizontal_spacing
    let stepY := cfg.diagram_box_height + cfg.diagram_vertical_spacing
    if decide (cfg.diagram_max_width < (lvl.length : ℚ) * stepX) then
      let npr := max 1 (Int.toNat (cfg.diagram_max_width / stepX).floor)
      let placed := enumMapFrom
        (fun i nid =>
          (nid, ((i % npr : Nat) : ℚ) * stepX, y + ((i / npr : Nat) : ℚ) * stepY))
        0 lvl
      let maxX2 := placed.foldl (fun m q => max m q.2.1) maxX
      let rowsUsed := (lvl.length + npr - 1) / npr
      placed ++
        placeTD cfg rest
          (y + (rowsUsed : ℚ) * stepY + cfg.diagram_vertical_spacing) maxX2
    else
      let placed := enumMapFrom (fun i nid => (nid, (i : ℚ) * stepX, y)) 0 lvl
      let maxX2 := placed.foldl (fun m q => max m q.2.1) maxX
      placed ++
        placeTD cfg rest
          (y + cfg.diagram_box_height + cfg.diagram_vertical_spacing * (3 / 2))
          maxX2

/-- `WordDocumentManager.calculate_diagram_layout`: BFS level assignment from
the roots, one trailing level per never-visited node, then direction-dependent
placement.  The returned association list is the `positions` dict in insertion
order. -/
def calculate_diagram_layout (cfg : WordFormattingConfig)
    (nodes : List MermaidNode) (edges : List MermaidEdge)
    (direction : String) : List (String × ℚ × ℚ) :=
  let adj := adjacency nodes edges
  let bl := bfsLevels adj (nodes.length + edges.length + 1) []
    (rootIds nodes edges)
  let vis := bl.flatten
  let levels := bl ++
    (nodes.filter (fun n => decide (n.id ∉ vis))).map (fun n => [n.id])
  if direction = "LR" ∨ direction = "RL" then placeLR cfg levels 0 0 0
  else placeTD cfg levels 0 0

/-- The externally visible write effects of one generation pass, in program
order. -/
inductive SaveEvent where
  | copy1
  | copy2
  | tracking
deriving DecidableEq, Repr

/-- Control-flow model of `WordDocumentManager.generate_word_document`: the
pass saves the document to the original location, then to the main location,
and only then updates and persists the tracking snapshot; an exception at
either save is caught by the surrounding handler, which returns
`{'success': False}` without reaching the tracking update.  Inputs say
whether the file list is nonempty and whether each save succeeds; the output
is the returned success flag and the sequence of completed write effects. -/
def generate_word_document (filesNonempty save1ok save2ok : Bool) :
    Bool × List SaveEvent :=
  if !filesNonempty then (false, [])
  else if !save1ok then (false, [])
  else if !save2ok then (false, [.copy1])
  else (true, [.copy1, .copy2, .tracking])

/-- `MarkdownFileInfo` dataclass (timestamps as rationals). -/
structure MarkdownFileInfo where
  filepath : String
  subject : String
  filename : String
  created_time : ℚ
  modified_time : ℚ
  size : Nat
deriving DecidableEq, Repr

/-- `sorted(markdown_files, key=lambda x: x.created_time)`: Python's sort is
stable and ascending; a stable insertion sort on the strict order gives the
same result.  Each file is paired with the text read from it. -/
def sortByCreated (files : List (MarkdownFileInfo × String)) :
    List (MarkdownFileInfo × String) :=
  files.insertionSort (fun a b => a.1.created_time < b.1.created_time)

/-- The element sequence a generation pass renders: each file's text parsed
in ascending creation-time order, concatenated. -/
def passElements (files : List (MarkdownFileInfo × String)) : List MdElement :=
  ((sortByCreated files).map (fun fc => parse_markdown_content fc.2)).flatten

/-- The first line of a text matches none of the sanitizer's skip patterns
(vacuously true for empty text). -/
def cleanFirstLine (l : List Char) : Bool :=
  match (splitLines l).head? with
  | none => true
  | some f => !skippableLine (pyStrip f)

/-- A 43-line input whose scan window ends on a separator / filename /
separator block: 39 metadata lines, then `---`, `x.md`, `===`, `content`. -/
def c4Input : String :=
  String.intercalate "\n"
    (List.replicate 39 "Generated: x" ++ ["---", "x.md", "===", "content"])

/- ## Generic helper lemmas -/

theorem joinNl_cons (a : List Char) (ls : List (List Char)) (h : ls ≠ []) :
    joinNl (a :: ls) = a ++ '\n' :: joinNl ls := by
  simp [joinNl, h]

theorem splitLinesA_ne_nil (l : List Char) : ∀ (acc : List Char),
    l ≠ [] ∨ acc ≠ [] → splitLinesA l acc false ≠ [] := by
  induction l with
  | nil =>
    intro acc h
    rcases h with h | h
    · exact absurd rfl h
    · simp [splitLinesA, h]
  | cons c cs ih =>
    intro acc _
    simp only [splitLinesA, Bool.false_and, Bool.false_eq_true, if_false]
    split
    · simp
    · split
      · simp
      · exact ih (c :: acc) (Or.inr (by simp))

/-- On text whose only line-break character is `'\n'` and which does not end
in one, rejoining the split lines restores the text. -/
theorem joinNl_splitLinesA (l : List Char)
    (hnl : ∀ c ∈ l, isLineBreak c = true → c = '\n')
    (hend : l.getLast? ≠ some '\n') :
    ∀ acc : List Char, joinNl (splitLinesA l acc false) = acc.reverse ++ l := by
  induction l with
  | nil =>
    intro acc
    by_cases h : acc = []
    · simp [splitLinesA, h, joinNl]
    · simp [splitLinesA, h, joinNl]
  | cons c cs ih =>
    intro acc
    have hcr : c ≠ '\r' := by
      intro h
      have := hnl c (List.mem_cons_self c cs) (by rw [h]; decide)
      rw [h] at this
      exact absurd this (by decide)
    have hnl2 : ∀ d ∈ cs, isLineBreak d = true → d = '\n' :=
      fun d hd => hnl d (List.mem_cons_of_mem c hd)
    have hend2 : cs.getLast? ≠ some '\n' := by
      cases cs with
      | nil => simp
      | cons d ds => rw [List.getLast?_cons_cons] at hend; exact hend
    simp only [splitLinesA, Bool.false_and, Bool.false_eq_true, if_false,
      hcr, if_neg hcr]
    by_cases hb : isLineBreak c = true
    · have hcn : c = '\n' := hnl c (List.mem_cons_self c cs) hb
      have hcs : cs ≠ [] := by
        intro h
        rw [h] at hend
        rw [hcn] at hend
        simp at hend
      rw [if_pos hb, joinNl_cons _ _ (splitLinesA_ne_nil cs [] (Or.inl hcs)),
        ih hnl2 hend2 []]
      simp [hcn]
    · rw [if_neg hb, ih hnl2 hend2 (c :: acc)]
      simp

/-- The lines produced by `splitlines` contain no line-break characters. -/
theorem splitLinesA_no_break (l : List Char) : ∀ (acc : List Char) (skip : Bool),
    (∀ c ∈ acc, isLineBreak c = false) →
    ∀ line ∈ splitLinesA l acc skip, ∀ c ∈ line, isLineBreak c = false := by
  induction l with
  | nil =>
    intro acc _ hacc line hline c hc
    by_cases h : acc = [] <;> simp [splitLinesA, h] at hline
    · subst hline
      exact hacc c (by simpa using hc)
  | cons d ds ih =>
    intro acc skip hacc line hline c hc
    simp only [splitLinesA] at hline
    split at hline
    · exact ih [] false (by simp) line hline c hc
    · split at hline
      · rcases List.mem_cons.mp hline with h | h
        · subst h
          exact hacc c (by simpa using hc)
        · exact ih [] true (by simp) line h c hc
      · split at hline
        · rcases List.mem_cons.mp hline with h | h
          · subst h
            exact hacc c (by simpa using hc)
          · exact ih [] false (by simp) line h c hc
        · rename_i hnb
          refine ih (d :: acc) false ?_ line hline c hc
          intro e he
          rcases List.mem_cons.mp he with h | h
          · subst h
            simpa using hnb
          · exact hacc e h

/-- `lstrip('\n')` after a join removes exactly the leading blank lines. -/
theorem dropNlPrefix_joinNl (ls : List (List Char))
    (h : ∀ line ∈ ls, '\n' ∉ line) :
    dropNlPrefix (joinNl ls) =
      joinNl (ls.dropWhile (fun line => decide (line = []))) := by
  induction ls with
  | nil => rfl
  | cons l ls ih =>
    have hl := h l (List.mem_cons_self l ls)
    have h2 : ∀ line ∈ ls, '\n' ∉ line :=
      fun line hline => h line (List.mem_cons_of_mem l hline)
    by_cases hle : l = []
    · subst hle
      by_cases hlse : ls = []
      · subst hlse
        rfl
      · rw [joinNl_cons _ _ hlse]
        simp only [List.nil_append]
        show dropNlPrefix ('\n' :: joinNl ls) = _
        have h3 : dropNlPrefix ('\n' :: joinNl ls) = dropNlPrefix (joinNl ls) := by
          simp [dropNlPrefix]
        rw [h3, ih h2]
        simp
    · obtain ⟨c, l2, rfl⟩ : ∃ c l2, l = c :: l2 := by
        cases l with
        | nil => exact absurd rfl hle
        | cons c l2 => exact ⟨c, l2, rfl⟩
      have hcn : c ≠ '\n' := fun hh => hl (hh ▸ List.mem_cons_self c l2)
      have hdrop : List.dropWhile (fun line => decide (line = []))
          ((c :: l2) :: ls) = (c :: l2) :: ls := by
        rw [List.dropWhile_cons]
        simp
      rw [hdrop]
      by_cases hlse : ls = []
      · subst hlse
        show dropNlPrefix (c :: l2) = _
        simp [dropNlPrefix, List.dropWhile_cons, hcn, joinNl]
      · rw [joinNl_cons _ _ hlse]
        show dropNlPrefix (c :: (l2 ++ '\n' :: joinNl ls)) = _
        simp [dropNlPrefix, List.dropWhile_cons, hcn]

/-- The skip scan can end at most two lines past the window limit (via the
3-line block advance). -/
theorem scanSkipF_le (lines : List (List Char)) (limit : Nat) :
    ∀ (fuel i : Nat), scanSkipF fuel lines limit i ≤ max i (limit + 2) := by
  intro fuel
  induction fuel with
  | zero => intro i; exact Nat.le_max_left _ _
  | succ f ih =>
    intro i
    simp only [scanSkipF]
    split
    · rename_i hlt
      split
      · split
        · have h1 := ih (i + 3)
          have h2 : i + 3 ≤ limit + 2 := by omega
          exact Nat.le_trans (Nat.le_trans h1 (Nat.le_of_eq (Nat.max_eq_right h2)))
            (Nat.le_max_right _ _)
        · have h1 := ih (i + 1)
          have h2 : i + 1 ≤ limit + 2 := by omega
          exact Nat.le_trans (Nat.le_trans h1 (Nat.le_of_eq (Nat.max_eq_right h2)))
            (Nat.le_max_right _ _)
      · exact Nat.le_max_left _ _
    · exact Nat.le_max_left _ _

theorem frontMatterLines_subset (ls : List (List Char)) :
    ∀ x ∈ frontMatterLines ls, x ∈ ls := by
  intro x hx
  cases ls with
  | nil => simp [frontMatterLines] at hx
  | cons first rest =>
    simp only [frontMatterLines] at hx
    split at hx
    · split at hx
      · exact List.mem_cons_of_mem _ (List.drop_subset _ _ hx)
      · exact List.mem_cons_of_mem _ hx
    · exact hx

/-- The sanitizer is the identity on BOM-free text with a clean first line,
`'\n'`-only line breaks and no trailing newline. -/
theorem stripMdHeaderCore_eq_self (l : List Char)
    (hbom : l.head? ≠ some (Char.ofNat 0xFEFF))
    (hnl : ∀ c ∈ l, isLineBreak c = true → c = '\n')
    (hend : l.getLast? ≠ some '\n')
    (hclean : cleanFirstLine l = true) :
    stripMdHeaderCore l = l := by
  have hfirst : ∀ f, (splitLines l).head? = some f →
      skippableLine (pyStrip f) = false := by
    intro f hf
    unfold cleanFirstLine at hclean
    rw [hf] at hclean
    simpa using hclean
  have h1 : stripBomChars l = l := by
    cases l with
    | nil => rfl
    | cons c cs =>
      have hc : ¬ (c = Char.ofNat 0xFEFF) := fun h => hbom (by simp [h])
      simp [stripBomChars, List.dropWhile_cons, hc]
  have hjoin : joinNl (splitLines l) = l := by
    have := joinNl_splitLinesA l hnl hend []
    simpa [splitLines] using this
  have hfm : frontMatterLines (splitLines l) = splitLines l := by
    cases hsl : splitLines l with
    | nil => rfl
    | cons f rest =>
      have hsk := hfirst f (by rw [hsl]; rfl)
      have hne : pyStrip f ≠ ['-', '-', '-'] := by
        intro he
        rw [he] at hsk
        exact absurd hsk (by decide)
      simp only [frontMatterLines]
      rw [if_neg hne]
  have hscan : scanSkip (splitLines l) (min (splitLines l).length 40) 0 = 0 := by
    cases hsl : splitLines l with
    | nil => rfl
    | cons f rest =>
      have hsk := hfirst f (by rw [hsl]; rfl)
      have hlim : 0 < min (f :: rest).length 40 := by
        simp [List.length_cons]
      unfold scanSkip
      simp only [scanSkipF, List.getD_cons_zero]
      rw [if_pos hlim, hsk]
      simp
  have hnlp : dropNlPrefix l = l := by
    cases hl2 : l with
    | nil => rfl
    | cons c cs =>
      have hcn : ¬ (c = '\n') := by
        intro hc
        have hh : (splitLines l).head? = some [] := by
          rw [hl2, hc]
          rfl
        have := hfirst [] hh
        exact absurd this (by decide)
      simp [dropNlPrefix, List.dropWhile_cons, hcn]
  show dropNlPrefix (joinNl ((frontMatterLines (splitLines (stripBomChars l))).drop
    (scanSkip (frontMatterLines (splitLines (stripBomChars l)))
      (min (frontMatterLines (splitLines (stripBomChars l))).length 40) 0))) = l
  rw [h1, hfm, hscan, List.drop_zero, hjoin, hnlp]

theorem splitOnChar_ne_nil (sep : Char) (l : List Char) :
    splitOnChar sep l ≠ [] := by
  cases l with
  | nil => simp [splitOnChar]
  | cons c cs =>
    unfold splitOnChar
    split
    · simp
    · split <;> simp

theorem rowCells_ne_nil (l : List Char) : rowCells l ≠ [] := by
  simp only [rowCells, ne_eq, List.map_eq_nil_iff]
  exact splitOnChar_ne_nil _ _

theorem foldl_max_init_le (rows : List (List String)) (a : Nat) :
    a ≤ rows.foldl (fun m r => max m r.length) a := by
  induction rows generalizing a with
  | nil => exact Nat.le_refl a
  | cons b bs ih => exact Nat.le_trans (Nat.le_max_left a b.length) (ih _)

theorem length_le_maxColsOf (rows : List (List String)) (r : List String)
    (hr : r ∈ rows) : r.length ≤ maxColsOf rows := by
  unfold maxColsOf
  generalize (0 : Nat) = a
  induction rows generalizing a with
  | nil => cases hr
  | cons b bs ih =>
    rcases List.mem_cons.mp hr with h | h
    · subst h
      exact Nat.le_trans (Nat.le_max_right a r.length) (foldl_max_init_le bs _)
    · exact ih h _

theorem parse_table_facts (ls : List (List Char))
    (rows : List (List (List Char))) (hh : Bool) (k : Nat)
    (h : parse_table ls = some (rows, hh, k)) :
    rows = tableRows (tableRegion ls) ∧ hh = tableHasHeader (tableRegion ls) ∧
      k = (tableRegion ls).length ∧ rows ≠ [] := by
  unfold parse_table at h
  dsimp only at h
  split at h
  · exact absurd h (by simp)
  · split at h
    · exact absurd h (by simp)
    · rename_i hne
      simp only [Option.some.injEq, Prod.mk.injEq] at h
      obtain ⟨h1, h2, h3⟩ := h
      exact ⟨h1.symm, h2.symm, h3.symm, h1 ▸ hne⟩


theorem trimRight_cons_nil (c : Char) (cs : List Char) (h : trimRight cs = []) :
    trimRight (c :: cs) = if isPySpace c then [] else [c] := by
  unfold trimRight
  rw [h]

theorem trimRight_cons_cons (c : Char) (cs : List Char) (r : Char)
    (rs : List Char)
    (h : trimRight cs = r :: rs) : trimRight (c :: cs) = c :: r :: rs := by
  unfold trimRight
  rw [h]

theorem trimRight_eq_nil_iff (l : List Char) :
    trimRight l = [] ↔ ∀ c ∈ l, isPySpace c = true := by
  induction l with
  | nil => simp [trimRight]
  | cons c cs ih =>
    cases h : trimRight cs with
    | nil =>
      rw [trimRight_cons_nil c cs h]
      constructor
      · intro h2 d hd
        by_cases hw : isPySpace c = true
        · rcases List.mem_cons.mp hd with rfl | hd
          · exact hw
          · exact (ih.mp h) d hd
        · rw [if_neg (by simpa using hw)] at h2
          simp at h2
      · intro h2
        rw [if_pos (h2 c (List.mem_cons_self c cs))]
    | cons r rs =>
      rw [trimRight_cons_cons c cs r rs h]
      constructor
      · intro h2
        simp at h2
      · intro h2
        have h3 := ih.mpr (fun d hd => h2 d (List.mem_cons_of_mem c hd))
        rw [h] at h3
        simp at h3

theorem trimRight_cons_shape (c : Char) (cs : List Char) :
    trimRight (c :: cs) = [] ∨ ∃ t, trimRight (c :: cs) = c :: t := by
  cases h : trimRight cs with
  | nil =>
    rw [trimRight_cons_nil c cs h]
    by_cases hw : isPySpace c = true
    · left
      rw [if_pos hw]
    · right
      exact ⟨[], by rw [if_neg (by simpa using hw)]⟩
  | cons r rs => exact Or.inr ⟨r :: rs, trimRight_cons_cons c cs r rs h⟩

theorem trimRight_getLast_not_ws (l : List Char) : ∀ c,
    (trimRight l).getLast? = some c → isPySpace c = false := by
  induction l with
  | nil => intro c h; simp [trimRight] at h
  | cons d ds ih =>
    intro c h
    cases h2 : trimRight ds with
    | nil =>
      rw [trimRight_cons_nil d ds h2] at h
      by_cases hw : isPySpace d = true
      · rw [if_pos hw] at h
        simp at h
      · rw [if_neg (by simpa using hw)] at h
        simp at h
        subst h
        simpa using hw
    | cons r rs =>
      rw [trimRight_cons_cons d ds r rs h2, List.getLast?_cons_cons] at h
      have h3 := ih c
      rw [h2] at h3
      exact h3 h

theorem head?_dropWhile_not (p : Char → Bool) (l : List Char) (c : Char)
    (h : (l.dropWhile p).head? = some c) : p c = false := by
  induction l with
  | nil => simp at h
  | cons d ds ih =>
    rw [List.dropWhile_cons] at h
    split at h
    · exact ih h
    · rename_i hp
      simp at h
      subst h
      simpa using hp

theorem trimRight_head?_imp (l : List Char) (c : Char)
    (h : (trimRight l).head? = some c) : l.head? = some c := by
  cases l with
  | nil => simp [trimRight] at h
  | cons d ds =>
    rcases trimRight_cons_shape d ds with h2 | ⟨t, h2⟩
    · rw [h2] at h
      simp at h
    · rw [h2] at h
      simp at h
      simp [h]

theorem pyStrip_eq_nil_iff (l : List Char) :
    pyStrip l = [] ↔ ∀ c ∈ l, isPySpace c = true := by
  unfold pyStrip
  rw [trimRight_eq_nil_iff]
  constructor
  · intro h c hc
    have hsplit := List.takeWhile_append_dropWhile isPySpace l
    rw [← hsplit] at hc
    rcases List.mem_append.mp hc with h2 | h2
    · exact List.mem_takeWhile_imp h2
    · exact h c h2
  · intro h c hc
    exact h c (List.dropWhile_subset _ hc)

theorem blockquoteContent_some (L content : List Char)
    (h : blockquoteContent L = some content) :
    ∃ r, L.dropWhile isPySpace = '>' :: r ∧ content = pyStrip r := by
  unfold blockquoteContent at h
  split at h
  · exact absurd h (by simp)
  · rename_i c r heq
    split at h
    · rename_i hc
      split at h
      · exact absurd h (by simp)
      · subst hc
        exact ⟨r, heq, (Option.some.inj h).symm⟩
    · exact absurd h (by simp)

theorem pyStrip_head_gt (L r : List Char)
    (hdw : L.dropWhile isPySpace = '>' :: r) :
    ∃ t, pyStrip L = '>' :: t := by
  unfold pyStrip
  rw [hdw]
  rcases trimRight_cons_shape '>' r with h | h
  · rw [trimRight_eq_nil_iff] at h
    have h2 := h '>' (List.mem_cons_self _ _)
    exact absurd h2 (by decide)
  · exact h

theorem splitOnChar_single (sep : Char) (l : List Char) (h : sep ∉ l) :
    splitOnChar sep l = [l] := by
  induction l with
  | nil => rfl
  | cons c cs ih =>
    have hc : ¬ (c = sep) := fun h2 => h (h2 ▸ List.mem_cons_self c cs)
    have hcs : sep ∉ cs := fun h2 => h (List.mem_cons_of_mem c h2)
    unfold splitOnChar
    rw [if_neg hc, ih hcs]

theorem parseLines_blockquote_step (fuel : Nat) (l0 : List Char)
    (rest : List (List Char)) (lang : List Char) (code : List (List Char))
    (content : List Char)
    (hbq : blockquoteContent (pyRstrip l0) = some content)
    (t : List Char) (hps : pyStrip (pyRstrip l0) = '>' :: t) :
    parseLines (fuel + 1) (l0 :: rest) [] false lang code =
      (match findQuote content with
       | some (qs, qe, q) =>
         [MdElement.blockquote ⟨q⟩] ++
           (if 0 < qs then [MdElement.paragraph ⟨pyStrip (content.take qs)⟩]
            else []) ++
           (if qe < content.length then
             [MdElement.paragraph ⟨pyStrip (content.drop qe)⟩]
            else [])
       | none => [MdElement.paragraph ⟨content⟩]) ++
      parseLines fuel rest [] false lang code := by
  have hfence : fenceLine (pyRstrip l0) = false := by
    unfold fenceLine
    rw [hps]
    simp [List.isPrefixOf, btick]
  have hhr : hrLine (pyRstrip l0) = false := by
    unfold hrLine
    rw [hps]
    simp
  simp only [parseLines, hfence, hbq, hhr, hps]
  simp [flushPara]


theorem enumMapFrom_fst (f : Nat → String → String × ℚ × ℚ)
    (hf : ∀ j a, (f j a).1 = a) : ∀ (i : Nat) (lvl : List String),
    (enumMapFrom f i lvl).map Prod.fst = lvl := by
  intro i lvl
  induction lvl generalizing i with
  | nil => rfl
  | cons a as ih => simp [enumMapFrom, hf, ih]

theorem placeLR_keys (cfg : WordFormattingConfig) :
    ∀ (levels : List (List String)) (x y maxY : ℚ),
    (placeLR cfg levels x y maxY).map Prod.fst = levels.flatten := by
  intro levels
  induction levels with
  | nil => intro x y maxY; rfl
  | cons lvl rest ih =>
    intro x y maxY
    simp only [placeLR, List.flatten_cons, List.map_append]
    rw [enumMapFrom_fst _ (fun j a => rfl), ih]

theorem placeTD_keys (cfg : WordFormattingConfig) :
    ∀ (levels : List (List String)) (y maxX : ℚ),
    (placeTD cfg levels y maxX).map Prod.fst = levels.flatten := by
  intro levels
  induction levels with
  | nil => intro y maxX; rfl
  | cons lvl rest ih =>
    intro y maxX
    simp only [placeTD, List.flatten_cons]
    split
    · simp only [List.map_append]
      rw [enumMapFrom_fst _ (fun j a => rfl), ih]
    · simp only [List.map_append]
      rw [enumMapFrom_fst _ (fun j a => rfl), ih]

theorem addNexts_props (visited nbs : List String) :
    ∀ acc : List String, acc.Nodup → (∀ x ∈ acc, x ∉ visited) →
    (addNexts visited acc nbs).Nodup ∧
    (∀ x ∈ addNexts visited acc nbs, x ∉ visited) ∧
    (∀ x ∈ addNexts visited acc nbs, x ∈ acc ∨ x ∈ nbs) := by
  induction nbs with
  | nil =>
    intro acc h1 h2
    exact ⟨h1, h2, fun x hx => Or.inl hx⟩
  | cons nb nbs ih =>
    intro acc h1 h2
    have hstep : addNexts visited acc (nb :: nbs) =
        addNexts visited (if nb ∈ visited ∨ nb ∈ acc then acc else acc ++ [nb])
          nbs := rfl
    rw [hstep]
    by_cases hc : nb ∈ visited ∨ nb ∈ acc
    · rw [if_pos hc]
      obtain ⟨a1, a2, a3⟩ := ih acc h1 h2
      exact ⟨a1, a2, fun x hx => (a3 x hx).imp id (List.mem_cons_of_mem nb)⟩
    · rw [if_neg hc]
      push_neg at hc
      obtain ⟨hnv, hna⟩ := hc
      have h1a : (acc ++ [nb]).Nodup := by
        rw [List.nodup_append]
        refine ⟨h1, List.nodup_singleton nb, ?_⟩
        intro a ha ha2
        simp only [List.mem_singleton] at ha2
        subst ha2
        exact hna ha
      have h2a : ∀ x ∈ acc ++ [nb], x ∉ visited := by
        intro x hx
        rcases List.mem_append.mp hx with h | h
        · exact h2 x h
        · simp only [List.mem_singleton] at h
          subst h
          exact hnv
      obtain ⟨a1, a2, a3⟩ := ih (acc ++ [nb]) h1a h2a
      refine ⟨a1, a2, fun x hx => ?_⟩
      rcases a3 x hx with h | h
      · rcases List.mem_append.mp h with h | h
        · exact Or.inl h
        · simp only [List.mem_singleton] at h
          subst h
          exact Or.inr (List.mem_cons_self _ _)
      · exact Or.inr (List.mem_cons_of_mem nb h)

theorem nextLevel_props (adj : String → List String) (T : List String)
    (hadj : ∀ nid, ∀ y ∈ adj nid, y ∈ T) (visited : List String)
    (current : List String) :
    (nextLevel adj visited current).Nodup ∧
      (∀ x ∈ nextLevel adj visited current, x ∉ visited ∧ x ∈ T) := by
  suffices h : ∀ (cur acc : List String), acc.Nodup →
      (∀ x ∈ acc, x ∉ visited ∧ x ∈ T) →
      (cur.foldl (fun a nid => addNexts visited a (adj nid)) acc).Nodup ∧
      (∀ x ∈ cur.foldl (fun a nid => addNexts visited a (adj nid)) acc,
        x ∉ visited ∧ x ∈ T) by
    exact h current [] (by simp) (by simp)
  intro cur
  induction cur with
  | nil => intro acc h1 h2; exact ⟨h1, h2⟩
  | cons nid rest ih =>
    intro acc h1 h2
    obtain ⟨a1, a2, a3⟩ := addNexts_props visited (adj nid) acc h1
      (fun x hx => (h2 x hx).1)
    refine ih (addNexts visited acc (adj nid)) a1 ?_
    intro x hx
    refine ⟨a2 x hx, ?_⟩
    rcases a3 x hx with h | h
    · exact (h2 x h).2
    · exact hadj nid x h

theorem bfs_flatten_props (adj : String → List String) (T : List String)
    (hadj : ∀ nid, ∀ y ∈ adj nid, y ∈ T) :
    ∀ (fuel : Nat) (visited current : List String), current.Nodup →
      (∀ x ∈ current, x ∉ visited) →
      (bfsLevels adj fuel visited current).flatten.Nodup ∧
      (∀ x ∈ (bfsLevels adj fuel visited current).flatten, x ∉ visited) ∧
      (∀ x ∈ (bfsLevels adj fuel visited current).flatten,
        x ∈ current ∨ x ∈ T) := by
  intro fuel
  induction fuel with
  | zero =>
    intro visited current _ _
    refine ⟨by simp [bfsLevels], by simp [bfsLevels], by simp [bfsLevels]⟩
  | succ f ih =>
    intro visited current h1 h2
    by_cases hc : current = []
    · subst hc
      simp [bfsLevels]
    · have hbl : bfsLevels adj (f + 1) visited current =
          current :: bfsLevels adj f (visited ++ current)
            (nextLevel adj (visited ++ current) current) := by
        simp [bfsLevels, hc]
      rw [hbl, List.flatten_cons]
      obtain ⟨n1, n2⟩ := nextLevel_props adj T hadj (visited ++ current) current
      obtain ⟨b1, b2, b3⟩ := ih (visited ++ current)
        (nextLevel adj (visited ++ current) current) n1
        (fun x hx => (n2 x hx).1)
      refine ⟨?_, ?_, ?_⟩
      · exact List.Nodup.append h1 b1
          (fun x hx hx2 => (b2 x hx2) (List.mem_append.mpr (Or.inr hx)))
      · intro x hx
        rcases List.mem_append.mp hx with h | h
        · exact h2 x h
        · intro hv
          exact (b2 x h) (List.mem_append.mpr (Or.inl hv))
      · intro x hx
        rcases List.mem_append.mp hx with h | h
        · exact Or.inl h
        · rcases b3 x h with h3 | h3
          · exact Or.inr ((n2 x h3).2)
          · exact Or.inr h3

theorem rootIds_props (nodes : List MermaidNode) (edges : List MermaidEdge)
    (hnd : (nodeIds nodes).Nodup) :
    (rootIds nodes edges).Nodup ∧ ∀ x ∈ rootIds nodes edges, x ∈ nodeIds nodes := by
  have hfil : ((nodes.filter
      (fun n => decide (n.id ∉ edges.map MermaidEdge.to_node))).map
        MermaidNode.id).Nodup ∧
      ∀ x ∈ (nodes.filter
        (fun n => decide (n.id ∉ edges.map MermaidEdge.to_node))).map
          MermaidNode.id, x ∈ nodeIds nodes := by
    constructor
    · exact List.Nodup.sublist ((List.filter_sublist _).map MermaidNode.id) hnd
    · intro x hx
      simp only [List.mem_map] at hx
      obtain ⟨n, hn, rfl⟩ := hx
      exact List.mem_map_of_mem _ (List.mem_of_mem_filter hn)
  unfold rootIds
  cases nodes with
  | nil => simp
  | cons n ns =>
    dsimp only
    split
    · refine ⟨List.nodup_singleton _, ?_⟩
      intro x hx
      simp only [List.mem_singleton] at hx
      subst hx
      exact List.mem_map_of_mem _ (List.mem_cons_self _ _)
    · exact hfil

theorem flatten_map_singleton (l : List MermaidNode) (f : MermaidNode → String) :
    (l.map (fun n => [f n])).flatten = l.map f := by
  induction l with
  | nil => rfl
  | cons n ns ih => simp [ih]

/- ## Claim theorems -/

/-- C1 (counterexample): on the line `> a "q" b` the structural parser emits
the Blockquote first and only then the Paragraph for the preceding text, so
the claimed order Paragraph-before / Blockquote / Paragraph-after is wrong. -/
theorem c1_blockquote_order_cex :
    structuralParse ("> a \"q\" b".data) =
      [MdElement.blockquote "q", MdElement.paragraph "a",
       MdElement.paragraph "b"] ∧
    structuralParse ("> a \"q\" b".data) ≠
      [MdElement.paragraph "a", MdElement.blockquote "q",
       MdElement.paragraph "b"] := by
  constructor <;> decide

/-- C1 (amended): for a single line whose rstripped form matches the
blockquote pattern with content containing a double-quoted substring, the
structural parser emits the Blockquote first, then a Paragraph for the
preceding text (only if non-empty after stripping), then a Paragraph for the
following text (only if non-empty after stripping). -/
theorem c1_blockquote_order_amended (line : String)
    (hno : '\n' ∉ line.data)
    (content : List Char) (qs qe : Nat) (q : List Char)
    (hbq : blockquoteContent (pyRstrip line.data) = some content)
    (hq : findQuote content = some (qs, qe, q)) :
    structuralParse line.data =
      [MdElement.blockquote ⟨q⟩] ++
      (if pyStrip (content.take qs) ≠ [] then
        [MdElement.paragraph ⟨pyStrip (content.take qs)⟩] else []) ++
      (if pyStrip (content.drop qe) ≠ [] then
        [MdElement.paragraph ⟨pyStrip (content.drop qe)⟩] else []) := by
  obtain ⟨r, hdw, hcontent⟩ := blockquoteContent_some _ _ hbq
  obtain ⟨t, hps⟩ := pyStrip_head_gt _ _ hdw
  have hcne : content ≠ [] := by
    intro h
    rw [h] at hq
    simp [findQuote] at hq
  have hhead : ∀ c0 ct, content = c0 :: ct → isPySpace c0 = false := by
    intro c0 ct hc
    have h1 : (pyStrip r).head? = some c0 := by
      rw [← hcontent, hc]
      rfl
    unfold pyStrip at h1
    exact head?_dropWhile_not _ _ _ (trimRight_head?_imp _ _ h1)
  have hlast : ∀ d, content.getLast? = some d → isPySpace d = false := by
    intro d hd
    rw [hcontent] at hd
    unfold pyStrip at hd
    exact trimRight_getLast_not_ws _ _ hd
  have h0 : 0 < qs ↔ pyStrip (content.take qs) ≠ [] := by
    constructor
    · intro h
      cases hc : content with
      | nil => exact absurd hc hcne
      | cons c0 ct =>
        obtain ⟨m, rfl⟩ : ∃ m, qs = m + 1 := ⟨qs - 1, by omega⟩
        rw [List.take_succ_cons]
        intro hnil
        rw [pyStrip_eq_nil_iff] at hnil
        have h2 := hnil c0 (List.mem_cons_self _ _)
        have h3 := hhead c0 ct hc
        rw [h2] at h3
        exact absurd h3 (by simp)
    · intro h
      by_contra h2
      have h3 : qs = 0 := by omega
      rw [h3, List.take_zero] at h
      exact h rfl
  have h1 : qe < content.length ↔ pyStrip (content.drop qe) ≠ [] := by
    constructor
    · intro h
      have hdne : content.drop qe ≠ [] := by
        rw [ne_eq, List.drop_eq_nil_iff]
        omega
      obtain ⟨d, hd⟩ : ∃ d, (content.drop qe).getLast? = some d := by
        cases hgd : (content.drop qe).getLast? with
        | none => exact absurd (List.getLast?_eq_none_iff.mp hgd) hdne
        | some d => exact ⟨d, rfl⟩
      have hgl : content.getLast? = some d := by
        conv_lhs => rw [← List.take_append_drop qe content]
        rw [List.getLast?_append, hd]
        rfl
      intro hnil
      rw [pyStrip_eq_nil_iff] at hnil
      have hws := hnil d (List.mem_of_getLast?_eq_some hd)
      have hnws := hlast d hgl
      rw [hws] at hnws
      exact absurd hnws (by simp)
    · intro h
      by_contra h2
      have h3 : content.drop qe = [] := List.drop_eq_nil_iff.mpr (by omega)
      rw [h3] at h
      exact h rfl
  unfold structuralParse parseLinesTop
  rw [splitOnChar_single '\n' line.data hno,
    parseLines_blockquote_step ([line.data].length) line.data [] [] []
      content hbq t hps, hq]
  have htail : parseLines ([line.data].length) [] [] false [] [] = [] := rfl
  rw [htail]
  dsimp only
  simp only [List.append_nil, h0, h1]

/-- C1 (witness): the line `> a "q" b`. -/
theorem c1_blockquote_order_amended_witness :
    structuralParse ("> a \"q\" b".data) =
      [MdElement.blockquote ⟨"q".data⟩] ++
      (if pyStrip (("a \"q\" b".data).take 2) ≠ [] then
        [MdElement.paragraph ⟨pyStrip (("a \"q\" b".data).take 2)⟩] else []) ++
      (if pyStrip (("a \"q\" b".data).drop 5) ≠ [] then
        [MdElement.paragraph ⟨pyStrip (("a \"q\" b".data).drop 5)⟩] else []) :=
  c1_blockquote_order_amended "> a \"q\" b" (by decide) ("a \"q\" b".data)
    2 5 ("q".data) (by decide) (by decide)

/-- C2 (counterexample): parsing the single line `> He said "hello there"`
does not produce exactly one Blockquote element. -/
theorem c2_single_blockquote_cex :
    parse_markdown_content "> He said \"hello there\"" ≠
      [MdElement.blockquote "hello there"] := by decide

/-- C2 (amended): parsing the single line `> He said "hello there"` produces
exactly two elements, the Blockquote `hello there` followed by a Paragraph
`He said`. -/
theorem c2_single_blockquote_amended :
    parse_markdown_content "> He said \"hello there\"" =
      [MdElement.blockquote "hello there", MdElement.paragraph "He said"] := by
  decide

/-- C3 (counterexample): `"A\n"` has a clean first line and no metadata block,
yet the sanitizer changes it (to `"A"`). -/
theorem c3_sanitizer_noop_cex :
    cleanFirstLine ("A\n".data) = true ∧ strip_md_header "A\n" ≠ "A\n" := by
  constructor <;> decide

/-- C3 (amended): on input with no leading BOM, only `'\n'` line terminators,
no trailing newline and a first line matching none of the skip patterns, the
Front-Matter Sanitizer returns the input unchanged. -/
theorem c3_sanitizer_noop_amended (s : String)
    (hbom : s.data.head? ≠ some (Char.ofNat 0xFEFF))
    (hnl : ∀ c ∈ s.data, isLineBreak c = true → c = '\n')
    (hend : s.data.getLast? ≠ some '\n')
    (hclean : cleanFirstLine s.data = true) :
    strip_md_header s = s := by
  obtain ⟨l⟩ := s
  show (⟨stripMdHeaderCore l⟩ : String) = ⟨l⟩
  rw [stripMdHeaderCore_eq_self l hbom hnl hend hclean]

/-- C3 (witness): already-clean two-line text. -/
theorem c3_sanitizer_noop_amended_witness :
    strip_md_header "Hello\nWorld" = "Hello\nWorld" :=
  c3_sanitizer_noop_amended "Hello\nWorld" (by decide) (by decide) (by decide)
    (by decide)

/-- C4 (amended): for every input, the sanitizer's output is the suffix of the
front-matter-reduced line sequence starting at some index `k ≤ 42`, minus its
leading blank lines — so no line at index 42 or later is dropped other than as
part of that leading blank run, and lines 40-41 can only go via the 3-line
block overshoot. -/
theorem c4_lookahead_frame_amended (s : String) :
    ∃ k ≤ 42, (strip_md_header s).data =
      joinNl (((frontMatterLines (splitLines (stripBomChars s.data))).drop
        k).dropWhile (fun line => decide (line = []))) := by
  refine ⟨scanSkip (frontMatterLines (splitLines (stripBomChars s.data)))
    (min (frontMatterLines (splitLines (stripBomChars s.data))).length 40) 0,
    ?_, ?_⟩
  · have h1 := scanSkipF_le (frontMatterLines (splitLines (stripBomChars s.data)))
      (min (frontMatterLines (splitLines (stripBomChars s.data))).length 40)
      (min (frontMatterLines (splitLines (stripBomChars s.data))).length 40 + 1) 0
    have h2 : min (frontMatterLines (splitLines (stripBomChars s.data))).length
        40 ≤ 40 := Nat.min_le_right _ _
    rw [Nat.zero_max] at h1
    unfold scanSkip
    omega
  · show dropNlPrefix (joinNl ((frontMatterLines (splitLines
      (stripBomChars s.data))).drop
      (scanSkip (frontMatterLines (splitLines (stripBomChars s.data)))
        (min (frontMatterLines (splitLines (stripBomChars s.data))).length 40)
        0))) = _
    apply dropNlPrefix_joinNl
    intro line hline
    have h3 : line ∈ frontMatterLines (splitLines (stripBomChars s.data)) :=
      List.drop_subset _ _ hline
    have h4 : line ∈ splitLines (stripBomChars s.data) :=
      frontMatterLines_subset _ _ h3
    intro hc
    have h5 := splitLinesA_no_break (stripBomChars s.data) [] false (by simp)
      line h4 '\n' hc
    exact absurd h5 (by decide)

set_option maxRecDepth 100000 in
/-- C4 (counterexample): with 39 metadata lines before a separator at index
39, the 3-line block consumes lines 40 (`x.md`) and 41 (`===`) even though
they lie beyond the 40-line window. -/
theorem c4_lookahead_frame_cex :
    (frontMatterLines (splitLines (stripBomChars c4Input.data)))[40]? =
      some "x.md".data ∧
    (frontMatterLines (splitLines (stripBomChars c4Input.data)))[41]? =
      some "===".data ∧
    strip_md_header c4Input = "content" ∧
    "x.md".data ∉ splitLines ((strip_md_header c4Input).data) ∧
    "===".data ∉ splitLines ((strip_md_header c4Input).data) := by
  refine ⟨?_, ?_, ?_, ?_, ?_⟩ <;> decide

/-- C5: for every parsed Table element the rows emitted into the rendered
table all have the maximum row width as their column count, and each emitted
row is the original row padded with empty-string cells. -/
theorem c5_table_rows_padded (ls : List (List Char))
    (rows : List (List (List Char))) (hh : Bool) (k : Nat)
    (h : parse_table ls = some (rows, hh, k)) :
    (∀ r ∈ create_word_table_rows
        (rows.map (fun c => c.map (fun l => (⟨l⟩ : String)))),
      r.length = maxColsOf (rows.map (fun c => c.map (fun l => (⟨l⟩ : String))))) ∧
    create_word_table_rows (rows.map (fun c => c.map (fun l => (⟨l⟩ : String)))) =
      (rows.map (fun c => c.map (fun l => (⟨l⟩ : String)))).map
        (fun r => r ++ List.replicate
          (maxColsOf (rows.map (fun c => c.map (fun l => (⟨l⟩ : String)))) -
            r.length) "") := by
  obtain ⟨h1, _, _, hne⟩ := parse_table_facts ls rows hh k h
  have hcells : ∀ r ∈ rows, r ≠ [] := by
    intro r hr
    rw [h1] at hr
    simp only [tableRows, List.mem_map] at hr
    obtain ⟨l, _, rfl⟩ := hr
    exact rowCells_ne_nil l
  set srows := rows.map (fun c => c.map (fun l => (⟨l⟩ : String))) with hsrows
  have hsne : srows ≠ [] := by
    simpa [hsrows, List.map_eq_nil_iff] using hne
  have hrne : ∀ r ∈ srows, r ≠ [] := by
    intro r hr
    simp only [hsrows, List.mem_map] at hr
    obtain ⟨r0, hr0, rfl⟩ := hr
    simpa [List.map_eq_nil_iff] using hcells r0 hr0
  have hpos : maxColsOf srows ≠ 0 := by
    obtain ⟨r, hr⟩ := List.exists_mem_of_ne_nil srows hsne
    have h2 := length_le_maxColsOf srows r hr
    have h3 : 0 < r.length := List.length_pos.mpr (hrne r hr)
    omega
  have hnorm : create_word_table_rows srows = normalizeRows srows := by
    unfold create_word_table_rows
    rw [if_neg hsne, if_neg hpos]
  have hpad : normalizeRows srows =
      srows.map (fun r => r ++ List.replicate (maxColsOf srows - r.length) "") := by
    unfold normalizeRows
    apply List.map_congr_left
    intro r hr
    have hle := length_le_maxColsOf srows r hr
    apply List.take_of_length_le
    simp only [List.length_append, List.length_replicate]
    omega
  constructor
  · intro r hr
    rw [hnorm, hpad] at hr
    simp only [List.mem_map] at hr
    obtain ⟨r0, hr0, rfl⟩ := hr
    have hle := length_le_maxColsOf srows r0 hr0
    simp only [List.length_append, List.length_replicate]
    omega
  · rw [hnorm, hpad]

/-- C5 (witness): the 1-column / 2-column table `|a|`, `|b|c|`. -/
theorem c5_table_rows_padded_witness :
    (∀ r ∈ create_word_table_rows [["a"], ["b", "c"]],
      r.length = maxColsOf [["a"], ["b", "c"]]) ∧
    create_word_table_rows [["a"], ["b", "c"]] =
      [["a"], ["b", "c"]].map
        (fun r => r ++ List.replicate (maxColsOf [["a"], ["b", "c"]] - r.length) "") :=
  c5_table_rows_padded ["|a|".data, "|b|c|".data]
    [["a".data], ["b".data, "c".data]] false 2 (by decide)

/-- C6: on `**x**` enclosed in single backticks the inline scanner produces
exactly one span, styled as code, with content `**x**`. -/
theorem c6_inline_code_precedence :
    apply_inline_formatting "`**x**`" = [⟨"**x**", SpanStyle.code⟩] := by decide

/-- C7: for every diagram graph with distinct declared node ids and all edge
endpoints declared (as the diagram parser guarantees), the layout's position
map contains every declared node id exactly once. -/
theorem c7_layout_positions_perm (cfg : WordFormattingConfig) (nodes : List MermaidNode)
    (edges : List MermaidEdge) (direction : String)
    (hnd : (nodeIds nodes).Nodup)
    (_hef : ∀ e ∈ edges, e.from_node ∈ nodeIds nodes)
    (hep : ∀ e ∈ edges, e.to_node ∈ nodeIds nodes) :
    ((calculate_diagram_layout cfg nodes edges direction).map Prod.fst).Perm
      (nodeIds nodes) := by
  have hadj : ∀ nid, ∀ y ∈ adjacency nodes edges nid,
      y ∈ edges.map MermaidEdge.to_node := by
    intro nid y hy
    unfold adjacency at hy
    split at hy
    · simp only [List.mem_map] at hy
      obtain ⟨e, he, rfl⟩ := hy
      exact List.mem_map_of_mem _ (List.mem_of_mem_filter he)
    · simp at hy
  have hT : ∀ x ∈ edges.map MermaidEdge.to_node, x ∈ nodeIds nodes := by
    intro x hx
    simp only [List.mem_map] at hx
    obtain ⟨e, he, rfl⟩ := hx
    exact hep e he
  obtain ⟨hrn, hrs⟩ := rootIds_props nodes edges hnd
  obtain ⟨j1, _, j3⟩ := bfs_flatten_props (adjacency nodes edges) _ hadj
    (nodes.length + edges.length + 1) [] (rootIds nodes edges) hrn (by simp)
  have hJsub : ∀ x ∈ (bfsLevels (adjacency nodes edges)
      (nodes.length + edges.length + 1) [] (rootIds nodes edges)).flatten,
      x ∈ nodeIds nodes := fun x hx => (j3 x hx).elim (hrs x) (hT x)
  set J := (bfsLevels (adjacency nodes edges)
    (nodes.length + edges.length + 1) [] (rootIds nodes edges)).flatten with hJ
  have hkeys : (calculate_diagram_layout cfg nodes edges direction).map Prod.fst =
      J ++ (nodes.filter (fun n => decide (n.id ∉ J))).map MermaidNode.id := by
    unfold calculate_diagram_layout
    split
    · rw [placeLR_keys, List.flatten_append, flatten_map_singleton]
    · rw [placeTD_keys, List.flatten_append, flatten_map_singleton]
  rw [hkeys]
  have hJfilter : J.Perm ((nodeIds nodes).filter (fun x => decide (x ∈ J))) := by
    refine (List.perm_ext_iff_of_nodup j1 (List.Nodup.filter _ hnd)).mpr ?_
    intro a
    simp only [List.mem_filter, decide_eq_true_eq]
    constructor
    · intro h
      exact ⟨hJsub a h, h⟩
    · intro h
      exact h.2
  have hmapfilter : (nodes.filter (fun n => decide (n.id ∉ J))).map
      MermaidNode.id = (nodeIds nodes).filter (fun x => decide (x ∉ J)) := by
    unfold nodeIds
    rw [List.filter_map]
    rfl
  rw [hmapfilter]
  refine List.Perm.trans (List.Perm.append hJfilter (List.Perm.refl _)) ?_
  have hpred : (fun x : String => decide (x ∉ J)) =
      (fun x => !decide (x ∈ J)) := by
    funext x
    simp [decide_not]
  rw [hpred]
  exact List.filter_append_perm _ _

/-- C7 (witness): a 3-node fan laid out top-down. -/
theorem c7_layout_positions_perm_witness :
    ((calculate_diagram_layout {} [⟨"A", "A", "rounded"⟩, ⟨"B", "B", "rounded"⟩,
        ⟨"C", "C", "rounded"⟩]
      [⟨"A", "B", ""⟩, ⟨"A", "C", ""⟩] "TD").map Prod.fst).Perm
      (nodeIds [⟨"A", "A", "rounded"⟩, ⟨"B", "B", "rounded"⟩,
        ⟨"C", "C", "rounded"⟩]) :=
  c7_layout_positions_perm {} _ _ "TD" (by decide) (by decide) (by decide)

/-- C8: the tracking snapshot is written only after both output copies, and a
failed save yields a failed pass with no tracking write. -/
theorem c8_tracking_after_saves (fe s1 s2 : Bool) :
    (SaveEvent.tracking ∈ (generate_word_document fe s1 s2).2 →
      (generate_word_document fe s1 s2).2 =
        [SaveEvent.copy1, SaveEvent.copy2, SaveEvent.tracking] ∧
      s1 = true ∧ s2 = true) ∧
    ((s1 = false ∨ s2 = false) →
      (generate_word_document fe s1 s2).1 = false ∧
      SaveEvent.tracking ∉ (generate_word_document fe s1 s2).2) := by
  cases fe <;> cases s1 <;> cases s2 <;> decide

/-- C8 (witness): second save fails. -/
theorem c8_tracking_after_saves_witness :
    (generate_word_document true true false).1 = false ∧
    SaveEvent.tracking ∉ (generate_word_document true true false).2 :=
  (c8_tracking_after_saves true true false).2 (Or.inr rfl)

/-- C9: with creation times `t1 < t2` the pass concatenates the `t1` file's
elements before the `t2` file's elements, for either discovery order. -/
theorem c9_chronological_concat (f1 f2 : MarkdownFileInfo) (t1 t2 : String)
    (h : f1.created_time < f2.created_time) :
    passElements [(f1, t1), (f2, t2)] =
      parse_markdown_content t1 ++ parse_markdown_content t2 ∧
    passElements [(f2, t2), (f1, t1)] =
      parse_markdown_content t1 ++ parse_markdown_content t2 := by
  have h2 : ¬ f2.created_time < f1.created_time := lt_asymm h
  constructor <;>
    simp [passElements, sortByCreated, List.insertionSort, List.orderedInsert,
      h, h2]

/-- C9 (witness): two concrete files with creation times 0 < 1. -/
theorem c9_chronological_concat_witness :
    passElements
        [(⟨"a", "s", "a", 0, 0, 0⟩, "x"), (⟨"b", "s", "b", 1, 0, 0⟩, "y")] =
      parse_markdown_content "x" ++ parse_markdown_content "y" ∧
    passElements
        [(⟨"b", "s", "b", 1, 0, 0⟩, "y"), (⟨"a", "s", "a", 0, 0, 0⟩, "x")] =
      parse_markdown_content "x" ++ parse_markdown_content "y" :=
  c9_chronological_concat ⟨"a", "s", "a", 0, 0, 0⟩ ⟨"b", "s", "b", 1, 0, 0⟩
    "x" "y" (by norm_num)

/-- C10: a parsed table has `has_header` set exactly when the region's first
separator line sits at index 0 or 1. -/
theorem c10_has_header_sep_idx (ls : List (List Char))
    (rows : List (List (List Char))) (hh : Bool) (k : Nat)
    (h : parse_table ls = some (rows, hh, k)) :
    (hh = true ↔
      ∃ j, (tableRegion ls).findIdx? isSepLineTbl = some j ∧ j ≤ 1) := by
  obtain ⟨_, h2, _, _⟩ := parse_table_facts ls rows hh k h
  subst h2
  unfold tableHasHeader
  cases hidx : (tableRegion ls).findIdx? isSepLineTbl with
  | none => simp
  | some j => simp

/-- C10 (witness): a region whose very first line is the separator still sets
`has_header`. -/
theorem c10_has_header_sep_idx_witness :
    ∃ j, (tableRegion ["|---|".data, "|a|b|".data]).findIdx? isSepLineTbl =
      some j ∧ j ≤ 1 :=
  (c10_has_header_sep_idx ["|---|".data, "|a|b|".data]
    [["a".data, "b".data]] true 2 (by decide)).mp rfl

end InstaStudy
